import Mathlib

/-!
Verification of the finite-field element library (src/src/lib.rs).

The Rust code is generic over a signed integer type `T`; following the
spec's instantiation we embed it at `T = i64`, modelled as unbounded `Int`
with Rust's truncating remainder `%` embedded as `Int.tmod` (which agrees
with Rust `%` on all values, keeping the sign of the dividend).

Rust panics are embedded as explicit result constructors:
- `remZeroPanic` models the `attempt to calculate the remainder with a
  divisor of zero` panic of `%`;
- `orderMismatchPanic` models the explicit order-mismatch abort in the
  binary operators.
-/

namespace ProgBitcoin

/-- The `FieldElement<T>` struct at `T = i64`: a `number` and an `order`. -/
structure FieldElement where
  number : Int
  order : Int
deriving DecidableEq

/-- The two construction-time error kinds of `FieldElementError`. -/
inductive FieldElementError
  | negativeOrderError
  | numberGreaterThanOrderError
deriving DecidableEq

/-- Outcome of `FieldElement::new`: `Ok`, `Err`, or a remainder-by-zero panic. -/
inductive NewResult
  | ok (e : FieldElement)
  | err (e : FieldElementError)
  | remZeroPanic
deriving DecidableEq

/-- `FieldElement::new(number, order)`: reject `order < 0`, then reject
`number > order`, then store `number % order` (Rust truncating remainder,
which panics when `order = 0`). -/
def fe_new (number order : Int) : NewResult :=
  if order < 0 then .err .negativeOrderError
  else if number > order then .err .numberGreaterThanOrderError
  else if order = 0 then .remZeroPanic
  else .ok ⟨number.tmod order, order⟩

/-- Outcome of a binary operator or of `pow`: a value, the order-mismatch
abort, or a remainder-by-zero panic. -/
inductive OpResult
  | ok (e : FieldElement)
  | orderMismatchPanic
  | remZeroPanic
deriving DecidableEq

/-- Outcome of the repeated-multiplication loop inside `pow`. -/
inductive LoopResult
  | ok (r : Int)
  | remZeroPanic
deriving DecidableEq

/-- The `while exp > 0` loop of `FieldElement::pow`:
`r = (r * self.number) % self.order; exp = exp - 1`. -/
def powLoop (number order r exp : Int) : LoopResult :=
  if 0 < exp then
    if order = 0 then .remZeroPanic
    else powLoop number order ((r * number).tmod order) (exp - 1)
  else .ok r
termination_by exp.toNat
decreasing_by omega

/-- `FieldElement::pow(self, exp)`: a negative exponent is rewritten once to
`(order - 1) + exp`, then the repeated-multiplication loop runs, and the
result is `r % order` with the same order. -/
def fe_pow (a : FieldElement) (exp : Int) : OpResult :=
  let e := if exp < 0 then (a.order - 1) + exp else exp
  match powLoop a.number a.order 1 e with
  | .remZeroPanic => .remZeroPanic
  | .ok r =>
    if a.order = 0 then .remZeroPanic
    else .ok ⟨r.tmod a.order, a.order⟩

/-- `impl Add`: abort on order mismatch, else `(a.number + b.number) % order`. -/
def fe_add (a b : FieldElement) : OpResult :=
  if a.order ≠ b.order then .orderMismatchPanic
  else if a.order = 0 then .remZeroPanic
  else .ok ⟨(a.number + b.number).tmod a.order, a.order⟩

/-- `impl Sub`: abort on order mismatch, else
`((a.number - b.number) + order) % order`. -/
def fe_sub (a b : FieldElement) : OpResult :=
  if a.order ≠ b.order then .orderMismatchPanic
  else if a.order = 0 then .remZeroPanic
  else .ok ⟨((a.number - b.number) + a.order).tmod a.order, a.order⟩

/-- `impl Mul`: abort on order mismatch, else `(a.number * b.number) % order`. -/
def fe_mul (a b : FieldElement) : OpResult :=
  if a.order ≠ b.order then .orderMismatchPanic
  else if a.order = 0 then .remZeroPanic
  else .ok ⟨(a.number * b.number).tmod a.order, a.order⟩

/-- `impl Div`: abort on order mismatch, else multiply by `rhs.pow(-1)`,
propagating any panic from `pow`. -/
def fe_div (a b : FieldElement) : OpResult :=
  if a.order ≠ b.order then .orderMismatchPanic
  else
    match fe_pow b (-1) with
    | .ok d => fe_mul a d
    | .orderMismatchPanic => .orderMismatchPanic
    | .remZeroPanic => .remZeroPanic

/-- The loop body is skipped entirely when the exponent is not positive. -/
theorem powLoop_nonpos (number order r exp : Int) (h : exp ≤ 0) :
    powLoop number order r exp = .ok r := by
  rw [powLoop, if_neg (by omega)]

/-- For a negative dividend, Rust's truncating remainder is the negation of
the remainder of the negated dividend. -/
theorem neg_tmod_eq (a b : Int) : (-a).tmod b = -(a.tmod b) := by
  simp [Int.tmod_def, Int.neg_tdiv, Int.mul_neg, Int.neg_sub, Int.sub_neg]
  omega

/-- C1: the claim that every successful construction satisfies invariant I1,
in particular for negative inputs, is false: `new(-5, 17)` succeeds but
stores the truncated remainder `-5`, which is below `0`. -/
theorem C1_counterexample :
    fe_new (-5) 17 = NewResult.ok ⟨-5, 17⟩ ∧ ¬ (0 ≤ (-5 : Int)) := by
  decide

/-- C1 (amended): on success, invariant I2 holds (`order ≥ 0`), the stored
number is strictly between `-order` and `order`, and the full invariant I1
(`0 ≤ number`) holds whenever the raw input `n` is nonnegative. -/
theorem C1_new_invariants (n p : Int) (e : FieldElement)
    (h : fe_new n p = .ok e) :
    0 ≤ e.order ∧ -e.order < e.number ∧ e.number < e.order ∧
      (0 ≤ n → 0 ≤ e.number) := by
  unfold fe_new at h
  split at h
  · exact absurd h (by simp)
  · split at h
    · exact absurd h (by simp)
    · split at h
      · exact absurd h (by simp)
      · rename_i h1 h2 h3
        injection h with h4
        subst h4
        dsimp only
        have hp : 0 < p := by omega
        refine ⟨by omega, ?_, Int.tmod_lt_of_pos n hp, ?_⟩
        · rcases le_or_lt 0 n with hn | hn
          · have := Int.tmod_nonneg p hn
            omega
          · have : n.tmod p = -((-n).tmod p) := by
              rw [neg_tmod_eq]
              omega
            have := Int.tmod_lt_of_pos (-n) hp
            omega
        · intro hn
          exact Int.tmod_nonneg p hn

/-- Closed instance of the amended C1 at a concrete successful input. -/
theorem C1_new_invariants_witness :
    fe_new 6 17 = NewResult.ok ⟨6, 17⟩ ∧
      (0 ≤ (17 : Int) ∧ -(17 : Int) < 6 ∧ (6 : Int) < 17 ∧
        (0 ≤ (6 : Int) → 0 ≤ (6 : Int))) :=
  ⟨by decide, C1_new_invariants 6 17 ⟨6, 17⟩ (by decide)⟩

/-- C2: the claim that after both validation checks pass the constructor
always returns `Ok` is false at `new(0, 0)`: order `0` passes both checks
and the remainder `0 % 0` panics instead of producing a value. -/
theorem C2_counterexample : fe_new 0 0 = NewResult.remZeroPanic := by
  decide

/-- C2 (amended): `new` validates in order — negative order is rejected
first for every number, then a raw number above the order is rejected, and
otherwise, provided the order is nonzero, it returns `Ok` storing the
remainder `number % order` (not the raw number) together with the order;
with order `0` the remainder operation panics instead. -/
theorem C2_new_validation (n p : Int) :
    (p < 0 → fe_new n p = .err .negativeOrderError) ∧
    (0 ≤ p → p < n → fe_new n p = .err .numberGreaterThanOrderError) ∧
    (0 < p → n ≤ p → fe_new n p = .ok ⟨n.tmod p, p⟩) ∧
    (p = 0 → n ≤ 0 → fe_new n p = .remZeroPanic) := by
  refine ⟨fun h1 => ?_, fun h1 h2 => ?_, fun h1 h2 => ?_, fun h1 h2 => ?_⟩
  · unfold fe_new
    rw [if_pos h1]
  · unfold fe_new
    rw [if_neg (by omega), if_pos (by omega)]
  · unfold fe_new
    rw [if_neg (by omega), if_neg (by omega), if_neg (by omega)]
  · unfold fe_new
    rw [if_neg (by omega), if_neg (by omega), if_pos h1]

/-- Closed instance of the amended C2 at the spec's concrete inputs. -/
theorem C2_new_validation_witness :
    fe_new 5 (-1) = NewResult.err .negativeOrderError ∧
    fe_new 20 17 = NewResult.err .numberGreaterThanOrderError ∧
    fe_new 6 17 = NewResult.ok ⟨6, 17⟩ :=
  ⟨(C2_new_validation 5 (-1)).1 (by decide),
   (C2_new_validation 20 17).2.1 (by decide) (by decide),
   (C2_new_validation 6 17).2.2.1 (by decide) (by decide)⟩

/-- C10: with order `0`, construction never returns a `Result` for `n ≤ 0`
(both checks pass and the remainder by zero panics), while for `n > 0` it
returns the `NumberGreaterThanOrderError`. -/
theorem C10_order_zero (n : Int) :
    (n ≤ 0 → fe_new n 0 = .remZeroPanic) ∧
    (0 < n → fe_new n 0 = .err .numberGreaterThanOrderError) := by
  refine ⟨fun h => ?_, fun h => ?_⟩
  · unfold fe_new
    rw [if_neg (by omega), if_neg (by omega), if_pos rfl]
  · unfold fe_new
    rw [if_neg (by omega), if_pos (by omega)]

/-- Closed instance of C10 on both sides of zero. -/
theorem C10_order_zero_witness :
    fe_new 0 0 = NewResult.remZeroPanic ∧
    fe_new 5 0 = NewResult.err .numberGreaterThanOrderError :=
  ⟨(C10_order_zero 0).1 (by decide), (C10_order_zero 5).2 (by decide)⟩

/-- With matching nonzero orders, `add` returns its truncated-remainder sum. -/
theorem fe_add_ok (a b : FieldElement) (h : a.order = b.order)
    (h0 : a.order ≠ 0) :
    fe_add a b = .ok ⟨(a.number + b.number).tmod a.order, a.order⟩ := by
  unfold fe_add
  rw [if_neg (by simp [h]), if_neg h0]

/-- With matching nonzero orders, `sub` returns the truncated remainder of
the order-shifted difference. -/
theorem fe_sub_ok (a b : FieldElement) (h : a.order = b.order)
    (h0 : a.order ≠ 0) :
    fe_sub a b = .ok ⟨(a.number - b.number + a.order).tmod a.order, a.order⟩ := by
  unfold fe_sub
  rw [if_neg (by simp [h]), if_neg h0]

/-- With matching nonzero orders, `mul` returns its truncated-remainder
product. -/
theorem fe_mul_ok (a b : FieldElement) (h : a.order = b.order)
    (h0 : a.order ≠ 0) :
    fe_mul a b = .ok ⟨(a.number * b.number).tmod a.order, a.order⟩ := by
  unfold fe_mul
  rw [if_neg (by simp [h]), if_neg h0]

/-- `pow` has no order check, so it can never raise the order-mismatch
abort, and any value it returns keeps the order of its operand. -/
theorem fe_pow_shape (a : FieldElement) (e : Int) :
    fe_pow a e ≠ .orderMismatchPanic ∧
      (∀ d, fe_pow a e = .ok d → d.order = a.order) := by
  unfold fe_pow
  dsimp only
  cases hm : powLoop a.number a.order 1
      (if e < 0 then a.order - 1 + e else e) with
  | ok r =>
    by_cases h0 : a.order = 0
    · simp [h0]
    · refine ⟨by simp [h0], fun d hd => ?_⟩
      dsimp only at hd
      rw [if_neg h0] at hd
      injection hd with hd
      rw [← hd]
  | remZeroPanic => simp

/-- C3: each binary operator aborts with the order-mismatch panic exactly
when the two operands carry different orders; with equal orders the order
check never fires (though a remainder-by-zero panic is still possible for
order `0`). -/
theorem C3_order_mismatch (a b : FieldElement) :
    (a.order ≠ b.order →
      fe_add a b = .orderMismatchPanic ∧ fe_sub a b = .orderMismatchPanic ∧
      fe_mul a b = .orderMismatchPanic ∧ fe_div a b = .orderMismatchPanic) ∧
    (a.order = b.order →
      fe_add a b ≠ .orderMismatchPanic ∧ fe_sub a b ≠ .orderMismatchPanic ∧
      fe_mul a b ≠ .orderMismatchPanic ∧ fe_div a b ≠ .orderMismatchPanic) := by
  constructor
  · intro hne
    refine ⟨?_, ?_, ?_, ?_⟩ <;>
      simp only [fe_add, fe_sub, fe_mul, fe_div, if_pos hne]
  · intro heq
    have hmul : ∀ c : FieldElement, a.order = c.order →
        fe_mul a c ≠ .orderMismatchPanic := by
      intro c hc
      unfold fe_mul
      rw [if_neg (by simp [hc])]
      by_cases h0 : a.order = 0 <;> simp [h0]
    refine ⟨?_, ?_, ?_, ?_⟩
    · unfold fe_add
      rw [if_neg (by simp [heq])]
      by_cases h0 : a.order = 0 <;> simp [h0]
    · unfold fe_sub
      rw [if_neg (by simp [heq])]
      by_cases h0 : a.order = 0 <;> simp [h0]
    · exact hmul b heq
    · unfold fe_div
      rw [if_neg (by simp [heq])]
      cases hp : fe_pow b (-1) with
      | ok d =>
        exact hmul d (heq.trans ((fe_pow_shape b (-1)).2 d hp).symm)
      | orderMismatchPanic => exact absurd hp (fe_pow_shape b (-1)).1
      | remZeroPanic => simp

/-- Closed instance of C3: a mismatched pair aborts, a matched pair does
not trip the order check, shown for `add` and `div`. -/
theorem C3_order_mismatch_witness :
    fe_add ⟨1, 5⟩ ⟨1, 7⟩ = OpResult.orderMismatchPanic ∧
    fe_div ⟨1, 5⟩ ⟨1, 7⟩ = OpResult.orderMismatchPanic ∧
    fe_add ⟨1, 5⟩ ⟨2, 5⟩ ≠ OpResult.orderMismatchPanic ∧
    fe_div ⟨1, 5⟩ ⟨2, 5⟩ ≠ OpResult.orderMismatchPanic :=
  ⟨((C3_order_mismatch ⟨1, 5⟩ ⟨1, 7⟩).1 (by decide)).1,
   ((C3_order_mismatch ⟨1, 5⟩ ⟨1, 7⟩).1 (by decide)).2.2.2,
   ((C3_order_mismatch ⟨1, 5⟩ ⟨2, 5⟩).2 (by decide)).1,
   ((C3_order_mismatch ⟨1, 5⟩ ⟨2, 5⟩).2 (by decide)).2.2.2⟩

/-- C4: with equal positive order `p` and both operands in range, addition,
subtraction and multiplication produce exactly the spec's formulas
(`(a+b) mod p`, `((a-b)+p) mod p`, `(a*b) mod p`), keep the order, and
re-establish invariant I1 on the result. -/
theorem C4_closure (a b : FieldElement) (p : Int)
    (hao : a.order = p) (hbo : b.order = p) (hp : 0 < p)
    (ha0 : 0 ≤ a.number) (ha1 : a.number < p)
    (hb0 : 0 ≤ b.number) (hb1 : b.number < p) :
    (fe_add a b = .ok ⟨(a.number + b.number) % p, p⟩ ∧
      0 ≤ (a.number + b.number) % p ∧ (a.number + b.number) % p < p) ∧
    (fe_sub a b = .ok ⟨(a.number - b.number + p) % p, p⟩ ∧
      0 ≤ (a.number - b.number + p) % p ∧ (a.number - b.number + p) % p < p) ∧
    (fe_mul a b = .ok ⟨(a.number * b.number) % p, p⟩ ∧
      0 ≤ (a.number * b.number) % p ∧ (a.number * b.number) % p < p) := by
  have hor : a.order = b.order := by rw [hao, hbo]
  have hnz : a.order ≠ 0 := by omega
  refine ⟨⟨?_, Int.emod_nonneg _ (by omega), Int.emod_lt_of_pos _ hp⟩,
          ⟨?_, Int.emod_nonneg _ (by omega), Int.emod_lt_of_pos _ hp⟩,
          ⟨?_, Int.emod_nonneg _ (by omega), Int.emod_lt_of_pos _ hp⟩⟩
  · rw [fe_add_ok a b hor hnz, hao,
      Int.tmod_eq_emod (by omega) (by omega)]
  · rw [fe_sub_ok a b hor hnz, hao,
      Int.tmod_eq_emod (by omega) (by omega)]
  · rw [fe_mul_ok a b hor hnz, hao,
      Int.tmod_eq_emod (mul_nonneg ha0 hb0) (by omega)]

/-- Closed instance of C4 on the spec's order-17 vectors. -/
theorem C4_closure_witness :
    (fe_add ⟨6, 17⟩ ⟨13, 17⟩ = OpResult.ok ⟨(6 + 13 : Int) % 17, 17⟩ ∧
      0 ≤ (6 + 13 : Int) % 17 ∧ (6 + 13 : Int) % 17 < 17) ∧
    (fe_sub ⟨6, 17⟩ ⟨13, 17⟩ = OpResult.ok ⟨(6 - 13 + 17 : Int) % 17, 17⟩ ∧
      0 ≤ (6 - 13 + 17 : Int) % 17 ∧ (6 - 13 + 17 : Int) % 17 < 17) ∧
    (fe_mul ⟨6, 17⟩ ⟨13, 17⟩ = OpResult.ok ⟨(6 * 13 : Int) % 17, 17⟩ ∧
      0 ≤ (6 * 13 : Int) % 17 ∧ (6 * 13 : Int) % 17 < 17) :=
  C4_closure ⟨6, 17⟩ ⟨13, 17⟩ 17 rfl rfl (by decide) (by decide) (by decide)
    (by decide) (by decide)

/-- C5: with equal positive order and in-range operands, subtracting `b`
from the sum `a + b` recovers `a` exactly (structural equality). -/
theorem C5_sub_add_cancel (a b : FieldElement) (p : Int)
    (hao : a.order = p) (hbo : b.order = p) (hp : 0 < p)
    (ha0 : 0 ≤ a.number) (ha1 : a.number < p)
    (hb0 : 0 ≤ b.number) (hb1 : b.number < p) :
    ∃ c, fe_add a b = .ok c ∧ fe_sub c b = .ok a := by
  have hor : a.order = b.order := by rw [hao, hbo]
  have hnz : a.order ≠ 0 := by omega
  have hmod0 : 0 ≤ (a.number + b.number) % p := Int.emod_nonneg _ (by omega)
  have hmod1 : (a.number + b.number) % p < p := Int.emod_lt_of_pos _ hp
  refine ⟨⟨(a.number + b.number) % p, p⟩, ?_, ?_⟩
  · rw [fe_add_ok a b hor hnz, hao, Int.tmod_eq_emod (by omega) (by omega)]
  · have hco : (⟨(a.number + b.number) % p, p⟩ : FieldElement).order = b.order :=
      hbo.symm
    rw [fe_sub_ok _ b hco (show p ≠ 0 by omega)]
    dsimp only
    rw [Int.tmod_eq_emod (by omega) (by omega)]
    have key : ((a.number + b.number) % p - b.number + p) % p = a.number := by
      have hme : Int.ModEq p ((a.number + b.number) % p) (a.number + b.number) :=
        Int.emod_emod _ _
      have h1 : ((a.number + b.number) % p - b.number + p) % p
          = (a.number + b.number - b.number + p) % p :=
        (hme.sub_right b.number).add_right p
      rw [h1, show a.number + b.number - b.number + p = a.number + p * 1 by ring,
        Int.add_mul_emod_self_left, Int.emod_eq_of_lt ha0 ha1]
    rw [key, ← hao]

/-- Closed instance of C5 at the spec's order-17 vectors. -/
theorem C5_sub_add_cancel_witness :
    ∃ c, fe_add ⟨6, 17⟩ ⟨13, 17⟩ = .ok c ∧ fe_sub c ⟨13, 17⟩ = .ok ⟨6, 17⟩ :=
  C5_sub_add_cancel ⟨6, 17⟩ ⟨13, 17⟩ 17 rfl rfl (by decide) (by decide)
    (by decide) (by decide) (by decide)

/-- C6: for an in-range element with positive order, `pow` with exponent 1
returns the element itself, and `pow` with exponent 0 returns the element
`1 mod order` straight from the initial accumulator (zero loop
iterations). -/
theorem C6_pow_identity (a : FieldElement) (hp : 0 < a.order)
    (h0 : 0 ≤ a.number) (h1 : a.number < a.order) :
    fe_pow a 1 = .ok a ∧ fe_pow a 0 = .ok ⟨1 % a.order, a.order⟩ := by
  constructor
  · unfold fe_pow
    dsimp only
    rw [if_neg (by omega), powLoop, if_pos (by omega), if_neg (by omega),
      powLoop_nonpos _ _ _ _ (by omega)]
    dsimp only
    rw [if_neg (by omega), one_mul, Int.tmod_eq_of_lt h0 h1,
      Int.tmod_eq_of_lt h0 h1]
  · unfold fe_pow
    dsimp only
    rw [if_neg (by omega), powLoop_nonpos _ _ _ _ (by omega)]
    dsimp only
    rw [if_neg (by omega), Int.tmod_eq_emod (by omega) (by omega)]

/-- Closed instance of C6 at the spec's order-17 element. -/
theorem C6_pow_identity_witness :
    fe_pow ⟨6, 17⟩ 1 = OpResult.ok ⟨6, 17⟩ ∧
    fe_pow ⟨6, 17⟩ 0 = OpResult.ok ⟨1 % 17, 17⟩ :=
  C6_pow_identity ⟨6, 17⟩ (by decide) (by decide) (by decide)

/-- C7: a negative exponent is rewritten exactly once to
`exponent + (order - 1)` before the loop, so within one period
(`-(order-1) ≤ e < 0`) `pow base e` agrees with `pow base (e + (order-1))`,
whose exponent is nonnegative and therefore not rewritten again. -/
theorem C7_neg_exp_rewrite (base : FieldElement) (e : Int)
    (h1 : e < 0) (h2 : -(base.order - 1) ≤ e) :
    fe_pow base e = fe_pow base (e + (base.order - 1)) := by
  unfold fe_pow
  dsimp only
  rw [if_pos h1, if_neg (by omega), Int.add_comm (base.order - 1) e]

/-- Closed instance of C7 one period below zero. -/
theorem C7_neg_exp_rewrite_witness :
    fe_pow ⟨2, 7⟩ (-3) = fe_pow ⟨2, 7⟩ (-3 + (7 - 1)) :=
  C7_neg_exp_rewrite ⟨2, 7⟩ (-3) (by decide) (by decide)

/-- C9: for an exponent more than one period below zero, the single rewrite
leaves the exponent negative, the loop runs zero iterations, and `pow`
terminates with the element `1 mod order`. -/
theorem C9_very_negative_exp (base : FieldElement) (e : Int)
    (hp : 0 < base.order) (he : e < -(base.order - 1)) :
    fe_pow base e = .ok ⟨1 % base.order, base.order⟩ := by
  unfold fe_pow
  dsimp only
  rw [if_pos (by omega), powLoop_nonpos _ _ _ _ (by omega)]
  dsimp only
  rw [if_neg (by omega), Int.tmod_eq_emod (by omega) (by omega)]

/-- Closed instance of C9 far below one period. -/
theorem C9_very_negative_exp_witness :
    fe_pow ⟨3, 5⟩ (-10) = OpResult.ok ⟨1 % 5, 5⟩ :=
  C9_very_negative_exp ⟨3, 5⟩ (-10) (by decide) (by decide)

/-- The repeated-multiplication loop, run for a nonnegative number of
iterations with positive order and in-range state, returns an in-range
accumulator congruent to `r * number ^ iterations` modulo the order. -/
theorem powLoop_spec (n p : Int) (hp : 0 < p) (hn : 0 ≤ n) :
    ∀ (k : Nat) (r : Int), 0 ≤ r → r < p →
      ∃ s, powLoop n p r (k : Int) = .ok s ∧ 0 ≤ s ∧ s < p ∧
        s % p = (r * n ^ k) % p := by
  intro k
  induction k with
  | zero =>
    intro r h0 h1
    exact ⟨r, powLoop_nonpos _ _ _ _ (by omega), h0, h1, by simp⟩
  | succ k ih =>
    intro r h0 h1
    have hcast : ((k + 1 : Nat) : Int) = (k : Int) + 1 := by push_cast; ring
    rw [hcast, powLoop, if_pos (by omega), if_neg (by omega)]
    have harg : (k : Int) + 1 - 1 = (k : Int) := by ring
    rw [harg, Int.tmod_eq_emod (mul_nonneg h0 hn) (by omega)]
    obtain ⟨s, hs, hs0, hs1, hs2⟩ :=
      ih ((r * n) % p) (Int.emod_nonneg _ (by omega)) (Int.emod_lt_of_pos _ hp)
    refine ⟨s, hs, hs0, hs1, ?_⟩
    rw [hs2]
    have hme : Int.ModEq p ((r * n) % p) (r * n) := Int.emod_emod _ _
    have h2 : ((r * n) % p * n ^ k) % p = (r * n * n ^ k) % p :=
      hme.mul_right (n ^ k)
    rw [h2, show r * n * n ^ k = r * n ^ (k + 1) from by ring]

/-- C8: with equal prime order, in-range operands and nonzero divisor,
`div(a, b)` is exactly `mul(a, pow(b, -1))` (the Fermat inverse
`b ^ (p-2) mod p`), and multiplying the quotient back by `b` recovers `a`
structurally. -/
theorem C8_div_inverse (a b : FieldElement)
    (hord : a.order = b.order) (hp : Nat.Prime b.order.toNat)
    (ha0 : 0 ≤ a.number) (ha1 : a.number < a.order)
    (hb0 : 0 ≤ b.number) (hb1 : b.number < b.order)
    (hbn : b.number ≠ 0) :
    (∃ d, fe_pow b (-1) = .ok d ∧ fe_div a b = fe_mul a d) ∧
    (∃ c, fe_div a b = .ok c ∧ fe_mul c b = .ok a) := by
  have hq2 : 2 ≤ b.order.toNat := hp.two_le
  have hp2 : 2 ≤ b.order := by omega
  have hpq : b.order = (b.order.toNat : Int) := by omega
  obtain ⟨s, hs, hs0, hs1, hs2⟩ :=
    powLoop_spec b.number b.order (by omega) hb0 (b.order.toNat - 2) 1
      (by omega) (by omega)
  rw [one_mul] at hs2
  have hpow : fe_pow b (-1) = .ok ⟨s, b.order⟩ := by
    unfold fe_pow
    dsimp only
    rw [if_pos (by omega),
      show b.order - 1 + (-1) = ((b.order.toNat - 2 : Nat) : Int) from by omega,
      hs]
    dsimp only
    rw [if_neg (by omega), Int.tmod_eq_of_lt hs0 hs1]
  have hdiv_eq : fe_div a b = fe_mul a ⟨s, b.order⟩ := by
    unfold fe_div
    rw [if_neg (by simp [hord]), hpow]
  have hmul1 : fe_mul a ⟨s, b.order⟩ =
      .ok ⟨(a.number * s) % b.order, b.order⟩ := by
    rw [fe_mul_ok a ⟨s, b.order⟩ hord (by omega)]
    dsimp only
    rw [hord, Int.tmod_eq_emod (mul_nonneg ha0 hs0) (by omega)]
  have hc0 : 0 ≤ (a.number * s) % b.order := Int.emod_nonneg _ (by omega)
  haveI : Fact (b.order.toNat.Prime) := ⟨hp⟩
  have hnd : ¬ ((b.order.toNat : Int) ∣ b.number) := by
    intro hdvd
    have := Int.le_of_dvd (by omega) hdvd
    omega
  have hz : ((b.number : Int) : ZMod b.order.toNat) ≠ 0 := by
    rw [Ne, ZMod.intCast_zmod_eq_zero_iff_dvd]
    exact hnd
  have hfer := ZMod.pow_card_sub_one_eq_one hz
  have hfermat : Int.ModEq (b.order.toNat : Int)
      (b.number ^ (b.order.toNat - 1)) 1 := by
    have hcast : ((b.number ^ (b.order.toNat - 1) : Int) : ZMod b.order.toNat)
        = ((1 : Int) : ZMod b.order.toNat) := by
      push_cast
      rw [hfer]
    exact (ZMod.intCast_eq_intCast_iff _ _ _).mp hcast
  have hfermat2 : Int.ModEq b.order (b.number ^ (b.order.toNat - 1)) 1 := by
    rw [hpq]
    exact hfermat
  have key : ((a.number * s) % b.order * b.number) % b.order = a.number := by
    have hme : Int.ModEq b.order ((a.number * s) % b.order) (a.number * s) :=
      Int.emod_emod _ _
    have hsm : Int.ModEq b.order s (b.number ^ (b.order.toNat - 2)) := hs2
    calc ((a.number * s) % b.order * b.number) % b.order
        = (a.number * s * b.number) % b.order := hme.mul_right b.number
      _ = (a.number * b.number ^ (b.order.toNat - 2) * b.number) % b.order :=
          (hsm.mul_left a.number).mul_right b.number
      _ = (a.number * b.number ^ (b.order.toNat - 1)) % b.order := by
          rw [mul_assoc, ← pow_succ,
            show b.order.toNat - 2 + 1 = b.order.toNat - 1 from by omega]
      _ = (a.number * 1) % b.order := hfermat2.mul_left a.number
      _ = a.number := by
          rw [mul_one]
          exact Int.emod_eq_of_lt ha0 (by omega)
  have hmul2 : fe_mul ⟨(a.number * s) % b.order, b.order⟩ b = .ok a := by
    rw [fe_mul_ok ⟨(a.number * s) % b.order, b.order⟩ b rfl
      (show (b.order : Int) ≠ 0 from by omega)]
    dsimp only
    rw [Int.tmod_eq_emod (mul_nonneg hc0 hb0) (by omega), key, ← hord]
  refine ⟨⟨⟨s, b.order⟩, hpow, hdiv_eq⟩,
    ⟨⟨(a.number * s) % b.order, b.order⟩, ?_, hmul2⟩⟩
  rw [hdiv_eq, hmul1]

/-- Closed instance of C8 at the spec's order-17 division vector. -/
theorem C8_div_inverse_witness :
    (∃ d, fe_pow ⟨13, 17⟩ (-1) = .ok d ∧
      fe_div ⟨10, 17⟩ ⟨13, 17⟩ = fe_mul ⟨10, 17⟩ d) ∧
    (∃ c, fe_div ⟨10, 17⟩ ⟨13, 17⟩ = .ok c ∧
      fe_mul c ⟨13, 17⟩ = .ok ⟨10, 17⟩) :=
  C8_div_inverse ⟨10, 17⟩ ⟨13, 17⟩ rfl (by decide) (by decide) (by decide)
    (by decide) (by decide) (by decide)

end ProgBitcoin
